import Mathlib

/-!
A verification development for the `community_scripts_proxmoxve` search
engine (`searx/engines/community_scripts_proxmoxve.py`): an offline,
cache-backed search over a catalogue of Proxmox VE community scripts.

Modelling conventions:
* Python strings are `List Char`; byte strings (`bytes`) are `List Nat`.
* The JSON payload of the categories endpoint is an inductive `Json` tree.
* The `EngineCache` collaborator is a `Cache` structure holding the
  per-slug entries (keys `script_{slug}`, keyed here by the slug itself,
  which is equivalent because slugs embed injectively into those keys)
  and the index entry `script_slugs_list`.
* The `pickle.dumps` + `zlib.compress` pair and its inverse are opaque
  collaborators, passed explicitly as an `enc`/`dec` function pair; the
  source only observes them through the encoded blob's length, the
  truthiness of a cached blob, and decode success/failure.
* Case folding (`str.lower`) is modelled by `Char.toLower`, whitespace
  (`str.strip` / `str.split`) by `Char.isWhitespace`.
-/

namespace CommunityScripts

/-- One catalogue record, the normalized `{"name", "slug", "description"}`
dict produced by `_fetch_scripts`. -/
structure Record where
  name : List Char
  slug : List Char
  description : List Char
  deriving DecidableEq

/-- Untyped JSON tree: the shape of the remote categories payload as seen by
`resp.json()`. -/
inductive Json where
  | null
  | bool (b : Bool)
  | num (n : Int)
  | str (s : List Char)
  | arr (elems : List Json)
  | obj (fields : List (List Char × Json))

/-- Field lookup in a JSON object (`dict.get`): first binding wins. -/
def lookupField (fields : List (List Char × Json)) (key : List Char) : Option Json :=
  match fields with
  | [] => none
  | (k, v) :: rest => if k = key then some v else lookupField rest key

/-- Python `j.get(key)` for objects, `none` otherwise (the source only calls it on
values that passed an `isinstance(-, dict)` check). -/
def Json.get (j : Json) (key : List Char) : Option Json :=
  match j with
  | .obj fields => lookupField fields key
  | _ => none

def kName : List Char := "name".toList

def kSlug : List Char := "slug".toList

def kDescription : List Char := "description".toList

def kDisable : List Char := "disable".toList

def kScripts : List Char := "scripts".toList

/-- Python `str.strip()`: drop leading and trailing whitespace. -/
def strip (s : List Char) : List Char :=
  ((s.dropWhile Char.isWhitespace).reverse.dropWhile Char.isWhitespace).reverse

/-- The check `script.get("disable") is True`. -/
def isDisabledFlag : Option Json → Bool
  | some (.bool true) => true
  | _ => false

/-- The clamp `description[:500] if isinstance(description, str) else ""`. -/
def descOf : Option Json → List Char
  | some (.str d) => d.take 500
  | _ => []

/-- Python `isinstance(x, str)` on an optional JSON value: the contained string, or
`none` when the key was absent or held a non-string. -/
def asStr : Option Json → Option (List Char)
  | some (.str s) => some s
  | _ => none

/-- Per-script validation and normalization in `_fetch_scripts` (everything
before the duplicate-slug check): dict shape, `name`/`slug` must be strings,
trim, reject empties and `disable is True`, clamp the description to 500
characters.  `none` means the script contributes nothing. -/
def parseScript (script : Json) : Option Record :=
  match script with
  | .obj _ =>
    match asStr (script.get kName), asStr (script.get kSlug) with
    | some name0, some slug0 =>
      let name := strip name0
      let slug := strip slug0
      if name = [] ∨ slug = [] then none
      else if isDisabledFlag (script.get kDisable) then none
      else some ⟨name, slug, descOf (script.get kDescription)⟩
    | _, _ => none
  | _ => none

/-- The lookup `category.get("scripts", [])` together with the two shape checks of
`_fetch_scripts`: `none` means the whole category is skipped (not a dict, or
a `scripts` value that is not a list); an absent `scripts` key defaults to
the empty list. -/
def categoryScripts (cat : Json) : Option (List Json) :=
  match cat with
  | .obj _ =>
    match cat.get kScripts with
    | none => some []
    | some (.arr xs) => some xs
    | some _ => none
  | _ => none

/-- Fold one script into the loop state of `_fetch_scripts`: the set of seen
slugs and the accumulated record list. -/
def stepScript (st : List (List Char) × List Record) (script : Json) :
    List (List Char) × List Record :=
  match parseScript script with
  | none => st
  | some r =>
    if st.1.contains r.slug then st
    else (r.slug :: st.1, st.2 ++ [r])

/-- Fold one category into the loop state of `_fetch_scripts`. -/
def stepCategory (st : List (List Char) × List Record) (cat : Json) :
    List (List Char) × List Record :=
  match categoryScripts cat with
  | none => st
  | some scripts => scripts.foldl stepScript st

/-- The normalization pass of `_fetch_scripts` over a decoded payload. -/
def collectScripts (data : Json) : List Record :=
  match data with
  | .arr cats => (cats.foldl stepCategory ([], [])).2
  | _ => []

/-- The outcome of `searx.network.get` plus `resp.json()` as observed by
`_fetch_scripts`: a transport-level exception (`HTTPError`,
`TimeoutException`), or a response with a status code and an optional decoded
body (`none` models a body on which `resp.json()` raises `ValueError`). -/
inductive HttpResult where
  | transportError
  | ok (status : Nat) (body : Option Json)

/-- The fetcher `_fetch_scripts`: it soft-fails to `[]` on transport errors, non-200 status,
undecodable bodies and non-list payloads, otherwise normalizes the payload. -/
def fetchScripts (resp : HttpResult) : List Record :=
  match resp with
  | .transportError => []
  | .ok status body =>
    if status ≠ 200 then []
    else
      match body with
      | none => []
      | some data => collectScripts data

/-- Python `word in s` on the lower-cased fields: substring containment. -/
def containsWord (hay w : List Char) : Bool := decide (w <:+: hay)

/-- Python `str.lower()`, modelled by per-character `Char.toLower`. -/
def lowerStr (s : List Char) : List Char := s.map Char.toLower

/-- The loop body of `_score_script`, with the running score threaded as an
accumulator; returning `0` models the early `return 0` taken when a word
matches neither field. -/
def scoreLoop (nameL descL : List Char) (score : Nat) : List (List Char) → Nat
  | [] => score
  | w :: ws =>
    let inName := containsWord nameL w
    let inDesc := containsWord descL w
    if !inName && !inDesc then 0
    else
      scoreLoop nameL descL
        (score + (if inName then 10 else 0) + (if inDesc then 5 else 0)) ws

/-- The scorer `_score_script(script, words)`. -/
def scoreScript (r : Record) (words : List (List Char)) : Nat :=
  scoreLoop (lowerStr r.name) (lowerStr r.description) 0 words

/-- Helper for `splitWs`: `cur` is the current token, reversed. -/
def splitWsAux (cur : List Char) : List Char → List (List Char)
  | [] => if cur = [] then [] else [cur.reverse]
  | c :: rest =>
    if c.isWhitespace then
      if cur = [] then splitWsAux [] rest
      else cur.reverse :: splitWsAux [] rest
    else splitWsAux (c :: cur) rest

/-- Python `str.split()` (no argument): split on whitespace runs, producing
no empty tokens. -/
def splitWs (s : List Char) : List (List Char) := splitWsAux [] s

/-- Byte strings (`bytes`), e.g. the output of `zlib.compress`. -/
abbrev Blob := List Nat

/-- The engine's view of the `EngineCache` collaborator: the per-slug entries
(`script_{slug}`, keyed here by the slug) and the index entry
(`script_slugs_list`).  `none` models an absent or expired key. -/
structure Cache where
  entries : List Char → Option Blob
  index : Option (List (List Char))

/-- The cap `_MAX_CACHE_VALUE_LEN = 10240`. -/
def maxCacheValueLen : Nat := 10240

/-- The cap `_MAX_RESULTS = 20`. -/
def maxResults : Nat := 20

/-- The write `CACHE.set` of one per-slug entry. -/
def setEntry (c : Cache) (slug : List Char) (b : Blob) : Cache :=
  { c with entries := fun k => if k = slug then some b else c.entries k }

/-- The caching loop shared by `init` and the refetch path of `search`:
records with a falsy (empty) slug are skipped entirely; otherwise the slug is
appended to the slug list first, and the per-slug entry is written only when
the compressed blob fits under `_MAX_CACHE_VALUE_LEN`. -/
def writeLoop (enc : Record → Blob) :
    Cache → List (List Char) → List Record → Cache × List (List Char)
  | c, slugs, [] => (c, slugs)
  | c, slugs, r :: rest =>
    if r.slug = [] then writeLoop enc c slugs rest
    else
      let b := enc r
      if b.length > maxCacheValueLen then writeLoop enc c (slugs ++ [r.slug]) rest
      else writeLoop enc (setEntry c r.slug b) (slugs ++ [r.slug]) rest

/-- The full snapshot write-back (`init` lines 173-193, `search` lines
269-288): run the caching loop, then store the collected slug list under the
index key. -/
def writeSnapshot (enc : Record → Blob) (c : Cache) (scripts : List Record) :
    Cache × List (List Char) :=
  let p := writeLoop enc c [] scripts
  ({ p.1 with index := some p.2 }, p.2)

/-- The engine's `init`: pre-warm the cache; a no-op when the fetch came back empty. -/
def initEngine (enc : Record → Blob) (c : Cache) (fetched : List Record) : Cache :=
  if fetched = [] then c else (writeSnapshot enc c fetched).1

/-- The reconstruction loop of `search` (lines 242-256): read each slug's
entry in index order; `none` models `retrieval_successful = False`, caused by
a missing entry (including the falsy empty byte string) or by a
decompress/unpickle failure, and aborts the whole read. -/
def readLoop (dec : Blob → Option Record) (entries : List Char → Option Blob) :
    List (List Char) → Option (List Record)
  | [] => some []
  | slug :: rest =>
    match entries slug with
    | none => none
    | some b =>
      if b = [] then none
      else
        match dec b with
        | none => none
        | some r =>
          match readLoop dec entries rest with
          | none => none
          | some rs => some (r :: rs)

/-- The cache-read phase of `search` (lines 234-263): the scripts list after
the cache attempt — `[]` when the index entry is absent or empty, or when the
reconstruction loop aborted. -/
def cacheReadScripts (dec : Blob → Option Record) (c : Cache) : List Record :=
  match c.index with
  | none => []
  | some slugsList =>
    if slugsList = [] then []
    else
      match readLoop dec c.entries slugsList with
      | none => []
      | some l => l

/-- Lines 234-294 of `search`: the cache-first load with the
refetch-and-rewrite fallback.  `fetched` stands for the record list that the
`_fetch_scripts()` call on the fallback path returns. -/
def loadScripts (enc : Record → Blob) (dec : Blob → Option Record)
    (c : Cache) (fetched : List Record) : List Record × Cache :=
  let fromCache := cacheReadScripts dec c
  if fromCache = [] then
    if fetched = [] then ([], c)
    else (fetched, (writeSnapshot enc c fetched).1)
  else (fromCache, c)

/-- The comprehension `scored = [(s, script) for script in scripts if s > 0]` with `s` the script's score. -/
def scoredPairs (scripts : List Record) (words : List (List Char)) :
    List (Nat × Record) :=
  scripts.filterMap fun script =>
    let s := scoreScript script words
    if s > 0 then some (s, script) else none

/-- The ordering used by `scored.sort(key=lambda x: x[0], reverse=True)`:
`a` sorts no later than `b` when `a`'s score is at least `b`'s. -/
def scoreGE (a b : Nat × Record) : Prop := b.1 ≤ a.1

instance : DecidableRel scoreGE := fun a b => inferInstanceAs (Decidable (b.1 ≤ a.1))

instance : IsTotal (Nat × Record) scoreGE := ⟨fun a b => le_total b.1 a.1⟩

instance : IsTrans (Nat × Record) scoreGE := ⟨fun _ _ _ h1 h2 => le_trans h2 h1⟩

/-- Python `list.sort(key=lambda x: x[0], reverse=True)`: a stable descending
sort by score, modelled by insertion sort (the canonical stable sort — any
two stable sorts agree). -/
def sortByScoreDesc (l : List (Nat × Record)) : List (Nat × Record) :=
  l.insertionSort scoreGE

/-- One rendered result (`res.types.MainResult`). -/
structure MainResult where
  url : List Char
  title : List Char
  content : List Char
  deriving DecidableEq

/-- The template `_SCRIPT_URL` with the slug placeholder at the end, so formatting is
concatenation. -/
def scriptUrlBase : List Char :=
  "https://community-scripts.github.io/ProxmoxVE/scripts?id=".toList

def ellipsis : List Char := "...".toList

/-- The cut `content[:300].rsplit(" ", 1)[0]`: everything strictly before the last
space character, or the whole list when it contains no space. -/
def dropLastSpaceSuffix (l : List Char) : List Char :=
  match l.reverse.dropWhile (fun c => c ≠ ' ') with
  | [] => l
  | _ :: rest => rest.reverse

/-- Lines 300-303: the displayed content, truncating long descriptions. -/
def formatContent (desc : List Char) : List Char :=
  if desc.length > 300 then dropLastSpaceSuffix (desc.take 300) ++ ellipsis
  else desc

/-- Lines 305-311: one `MainResult` for a record. -/
def mkResult (r : Record) : MainResult :=
  { url := scriptUrlBase ++ r.slug
    title := r.name
    content := formatContent r.description }

/-- The rank phase (lines 297-300): stable descending sort of the scored
pairs, capped at `_MAX_RESULTS`. -/
def rankScripts (scripts : List Record) (words : List (List Char)) :
    List (Nat × Record) :=
  (sortByScoreDesc (scoredPairs scripts words)).take maxResults

/-- The engine's `search(query, params)`: the full query path.  `fetched` stands for the
record list a `_fetch_scripts()` call during this query would return. -/
def search (enc : Record → Blob) (dec : Blob → Option Record)
    (query : List Char) (c : Cache) (fetched : List Record) :
    List MainResult × Cache :=
  if query = [] ∨ strip query = [] then ([], c)
  else
    let L := loadScripts enc dec c fetched
    if L.1 = [] then ([], L.2)
    else
      let words := splitWs (lowerStr query)
      ((rankScripts L.1 words).map (fun p => mkResult p.2), L.2)

/-- The all-absent cache, the state before any write. -/
def emptyCache : Cache := ⟨fun _ => none, none⟩

/-- Length-prefixed character codes: a concrete stand-in for the opaque
serialize-and-compress collaborator, used to instantiate closed witnesses. -/
def encChars (l : List Char) : List Nat := l.length :: l.map Char.toNat

/-- Concrete record encoder for witnesses. -/
def encDemo (r : Record) : Blob :=
  encChars r.name ++ encChars r.slug ++ r.description.map Char.toNat

/-- Decode one length-prefixed field. -/
def decField : Blob → Option (List Char × Blob)
  | [] => none
  | n :: rest =>
    if n ≤ rest.length then some ((rest.take n).map Char.ofNat, rest.drop n)
    else none

/-- Concrete record decoder for witnesses, inverse to `encDemo`. -/
def decDemo (b : Blob) : Option Record :=
  match decField b with
  | none => none
  | some (name, b1) =>
    match decField b1 with
    | none => none
    | some (slug, b2) => some ⟨name, slug, b2.map Char.ofNat⟩

/-! ### Scoring lemmas -/

/-- Per-token contribution on already lower-cased fields. -/
def wordScore (nameL descL w : List Char) : Nat :=
  (if containsWord nameL w then 10 else 0) + (if containsWord descL w then 5 else 0)

/-- Per-token contribution of a record: +10 for a name hit, +5 for a
description hit. -/
def tokenContrib (r : Record) (w : List Char) : Nat :=
  wordScore (lowerStr r.name) (lowerStr r.description) w

/-- The token occurs in the lower-cased name or the lower-cased description. -/
def tokenFound (r : Record) (w : List Char) : Prop :=
  containsWord (lowerStr r.name) w = true ∨ containsWord (lowerStr r.description) w = true

instance (r : Record) (w : List Char) : Decidable (tokenFound r w) :=
  inferInstanceAs (Decidable (_ ∨ _))

theorem scoreLoop_of_all_found (nameL descL : List Char) (ws : List (List Char))
    (h : ∀ w ∈ ws, containsWord nameL w = true ∨ containsWord descL w = true) :
    ∀ acc, scoreLoop nameL descL acc ws = acc + (ws.map (wordScore nameL descL)).sum := by
  induction ws with
  | nil => intro acc; simp [scoreLoop]
  | cons w ws ih =>
    intro acc
    have hw := h w (List.mem_cons_self ..)
    have hrest : ∀ w ∈ ws, containsWord nameL w = true ∨ containsWord descL w = true :=
      fun w hw2 => h w (List.mem_cons_of_mem _ hw2)
    cases hn : containsWord nameL w <;> cases hd : containsWord descL w
    · rw [hn, hd] at hw; simp at hw
    all_goals simp [scoreLoop, hn, hd, ih hrest, wordScore]
    all_goals omega

theorem scoreLoop_zero_of_missing (nameL descL : List Char) (ws : List (List Char))
    (h : ∃ w ∈ ws, containsWord nameL w = false ∧ containsWord descL w = false) :
    ∀ acc, scoreLoop nameL descL acc ws = 0 := by
  induction ws with
  | nil => simp at h
  | cons w ws ih =>
    intro acc
    rcases h with ⟨w', hw', hn', hd'⟩
    rcases List.mem_cons.mp hw' with rfl | hmem
    · simp [scoreLoop, hn', hd']
    · cases hn : containsWord nameL w <;> cases hd : containsWord descL w <;>
        simp [scoreLoop, hn, hd] <;>
        exact ih ⟨w', hmem, hn', hd'⟩ _

/-- If every token is found, the score is the sum of per-token contributions. -/
theorem scoreScript_of_all_found (r : Record) (words : List (List Char))
    (h : ∀ w ∈ words, tokenFound r w) :
    scoreScript r words = (words.map (tokenContrib r)).sum := by
  have := scoreLoop_of_all_found (lowerStr r.name) (lowerStr r.description) words h 0
  simpa [scoreScript, tokenContrib] using this

/-- If some token is found in neither field, the score is zero. -/
theorem scoreScript_zero_of_missing (r : Record) (words : List (List Char))
    (h : ∃ w ∈ words, ¬ tokenFound r w) :
    scoreScript r words = 0 := by
  rcases h with ⟨w, hw, hnf⟩
  rw [tokenFound] at hnf
  push_neg at hnf
  exact scoreLoop_zero_of_missing _ _ words
    ⟨w, hw, by simpa using hnf.1, by simpa using hnf.2⟩ 0

/-- Membership in the scored list means: the record is in the input, its
score is positive, and the pair carries exactly that score. -/
theorem mem_scoredPairs {scripts : List Record} {words : List (List Char)}
    {p : Nat × Record} (hp : p ∈ scoredPairs scripts words) :
    p.2 ∈ scripts ∧ p.1 = scoreScript p.2 words ∧ 0 < p.1 := by
  obtain ⟨script, hs, hcond⟩ := List.mem_filterMap.mp hp
  by_cases hgt : 0 < scoreScript script words
  · simp only [hgt, if_pos] at hcond
    cases hcond
    exact ⟨hs, rfl, hgt⟩
  · rw [if_neg (by omega : ¬ scoreScript script words > 0)] at hcond
    exact Option.noConfusion hcond

/-- C4: for a non-empty token list, the score is the sum over tokens of
+10 for a name hit plus +5 for a description hit; and a token found in
neither field forces score 0 and exclusion from the scored list. -/
theorem score_is_sum_and_conjunctive (r : Record) (words : List (List Char))
    (hw : words ≠ []) :
    ((∀ w ∈ words, tokenFound r w) →
      scoreScript r words = (words.map (tokenContrib r)).sum)
    ∧ ((∃ w ∈ words, ¬ tokenFound r w) →
      scoreScript r words = 0 ∧
        ∀ (scripts : List Record) (p : Nat × Record),
          p ∈ scoredPairs scripts words → p.2 ≠ r) := by
  refine ⟨scoreScript_of_all_found r words, fun h => ⟨scoreScript_zero_of_missing r words h, ?_⟩⟩
  intro scripts p hp hpr
  obtain ⟨-, hscore, hpos⟩ := mem_scoredPairs hp
  rw [hpr, scoreScript_zero_of_missing r words h] at hscore
  omega

/-- The record of the spec's worked example. -/
def rPortainer : Record :=
  ⟨"Portainer".toList, "portainer".toList, "A lightweight docker management UI".toList⟩

/-- The token list of the spec's worked example, query `"docker portainer"`. -/
def wordsDockerPortainer : List (List Char) := ["docker".toList, "portainer".toList]

/-- Witness for C4 at the spec's worked example. -/
theorem score_is_sum_and_conjunctive_witness :
    wordsDockerPortainer ≠ [] ∧
    scoreScript rPortainer wordsDockerPortainer =
      (wordsDockerPortainer.map (tokenContrib rPortainer)).sum :=
  ⟨by decide,
    (score_is_sum_and_conjunctive rPortainer wordsDockerPortainer (by decide)).1 (by decide)⟩

/-- C9: a query that is empty or whitespace-only returns no results and
returns the cache unchanged, whatever its state (the result does not depend
on the cache at all). -/
theorem search_blank_query_frame (enc : Record → Blob) (dec : Blob → Option Record)
    (query : List Char) (c : Cache) (fetched : List Record)
    (h : strip query = []) :
    search enc dec query c fetched = ([], c) := by
  unfold search
  rw [if_pos (Or.inr h)]

/-- Witness for C9 on the two-character query of a space and a tab. -/
theorem search_blank_query_frame_witness :
    strip " \t".toList = [] ∧
    search encDemo decDemo " \t".toList emptyCache [rPortainer] = ([], emptyCache) :=
  ⟨by decide,
    search_blank_query_frame encDemo decDemo " \t".toList emptyCache [rPortainer] (by decide)⟩

/-! ### Score bounds (C10) -/

/-- A positive score means every token was found in some field. -/
theorem all_found_of_score_pos (r : Record) (words : List (List Char))
    (h : 0 < scoreScript r words) : ∀ w ∈ words, tokenFound r w := by
  by_contra hc
  push_neg at hc
  rw [scoreScript_zero_of_missing r words hc] at h
  exact absurd h (by omega)

/-- A found token contributes between 5 and 15. -/
theorem wordScore_bounds (nameL descL w : List Char)
    (h : containsWord nameL w = true ∨ containsWord descL w = true) :
    5 ≤ wordScore nameL descL w ∧ wordScore nameL descL w ≤ 15 := by
  unfold wordScore
  cases hn : containsWord nameL w <;> cases hd : containsWord descL w <;>
    simp_all <;> omega

theorem sum_wordScore_bounds (nameL descL : List Char) (ws : List (List Char))
    (h : ∀ w ∈ ws, containsWord nameL w = true ∨ containsWord descL w = true) :
    5 * ws.length ≤ (ws.map (wordScore nameL descL)).sum ∧
      (ws.map (wordScore nameL descL)).sum ≤ 15 * ws.length := by
  induction ws with
  | nil => simp
  | cons w ws ih =>
    have hw := wordScore_bounds nameL descL w (h w (by simp))
    have hr := ih fun w hw2 => h w (List.mem_cons_of_mem _ hw2)
    simp only [List.map_cons, List.sum_cons, List.length_cons]
    omega

/-- C10: with k ≥ 1 query tokens, every record that makes it into the ranked
results has a score between 5k and 15k. -/
theorem included_record_score_bounds (query : List Char) (scripts : List Record)
    (hk : 1 ≤ (splitWs (lowerStr query)).length) :
    ∀ p ∈ rankScripts scripts (splitWs (lowerStr query)),
      5 * (splitWs (lowerStr query)).length ≤ p.1 ∧
        p.1 ≤ 15 * (splitWs (lowerStr query)).length := by
  intro p hp
  have hp2 : p ∈ sortByScoreDesc (scoredPairs scripts (splitWs (lowerStr query))) :=
    List.mem_of_mem_take hp
  have hp3 : p ∈ scoredPairs scripts (splitWs (lowerStr query)) :=
    (List.perm_insertionSort scoreGE _).mem_iff.mp hp2
  obtain ⟨hmem, hscore, hpos⟩ := mem_scoredPairs hp3
  have hall : ∀ w ∈ splitWs (lowerStr query), tokenFound p.2 w :=
    all_found_of_score_pos p.2 _ (hscore ▸ hpos)
  have hsum := sum_wordScore_bounds (lowerStr p.2.name) (lowerStr p.2.description)
    (splitWs (lowerStr query)) fun w hw => hall w hw
  rw [hscore, scoreScript_of_all_found p.2 _ hall]
  exact hsum

/-- Witness for C10 at the spec's worked example. -/
theorem included_record_score_bounds_witness :
    5 * (splitWs (lowerStr "docker portainer".toList)).length ≤ 15 ∧
      15 ≤ 15 * (splitWs (lowerStr "docker portainer".toList)).length :=
  included_record_score_bounds "docker portainer".toList [rPortainer] (by decide)
    (15, rPortainer) (by decide)

/-! ### Ranking: sortedness, stability, cap (C5) -/

theorem filter_orderedInsert_score (s : Nat) (a : Nat × Record) :
    ∀ m : List (Nat × Record),
      (List.orderedInsert scoreGE a m).filter (fun x => decide (x.1 = s)) =
        if a.1 = s then a :: m.filter (fun x => decide (x.1 = s))
        else m.filter (fun x => decide (x.1 = s))
  | [] => by
    by_cases has : a.1 = s <;> simp [List.orderedInsert, List.filter, has]
  | b :: m => by
    rw [List.orderedInsert]
    by_cases hab : scoreGE a b
    · rw [if_pos hab]
      by_cases has : a.1 = s <;> by_cases hbs : b.1 = s <;>
        simp [List.filter_cons, has, hbs]
    · rw [if_neg hab]
      have hlt : a.1 < b.1 := by
        unfold scoreGE at hab; omega
      rw [List.filter_cons]
      by_cases hbs : b.1 = s
      · have has : ¬ a.1 = s := by omega
        simp [hbs, has, List.filter_cons, filter_orderedInsert_score s a m]
      · by_cases has : a.1 = s <;>
          simp [hbs, has, List.filter_cons, filter_orderedInsert_score s a m]

/-- Stability of the modelled sort: the elements carrying any one score
appear in the output in exactly their input order. -/
theorem filter_sortByScoreDesc (s : Nat) (l : List (Nat × Record)) :
    (sortByScoreDesc l).filter (fun x => decide (x.1 = s)) =
      l.filter (fun x => decide (x.1 = s)) := by
  induction l with
  | nil => rfl
  | cons a l ih =>
    show (List.orderedInsert scoreGE a (sortByScoreDesc l)).filter _ = _
    rw [filter_orderedInsert_score]
    by_cases has : a.1 = s <;> simp [has, List.filter_cons, ih]

/-- C5: the ranked output is sorted by descending score; elements of equal
score keep their relative order from the scored input list; the output
length is capped at 20; and every dropped element scores no more than every
returned one. -/
theorem rank_sorted_stable_capped (scripts : List Record) (query : List Char) :
    (rankScripts scripts (splitWs (lowerStr query))).Pairwise scoreGE
    ∧ (∀ s : Nat,
        (rankScripts scripts (splitWs (lowerStr query))).filter (fun x => decide (x.1 = s)) <+:
          (scoredPairs scripts (splitWs (lowerStr query))).filter (fun x => decide (x.1 = s)))
    ∧ (rankScripts scripts (splitWs (lowerStr query))).length =
        min (scoredPairs scripts (splitWs (lowerStr query))).length maxResults
    ∧ (∀ a ∈ (sortByScoreDesc (scoredPairs scripts (splitWs (lowerStr query)))).drop maxResults,
        ∀ b ∈ rankScripts scripts (splitWs (lowerStr query)), a.1 ≤ b.1) := by
  have hsorted :
      (sortByScoreDesc (scoredPairs scripts (splitWs (lowerStr query)))).Pairwise scoreGE :=
    List.sorted_insertionSort scoreGE _
  refine ⟨List.Pairwise.sublist (List.take_sublist _ _) hsorted, ?_, ?_, ?_⟩
  · intro s
    refine ⟨((sortByScoreDesc (scoredPairs scripts (splitWs (lowerStr query)))).drop
      maxResults).filter (fun x => decide (x.1 = s)), ?_⟩
    rw [← filter_sortByScoreDesc s (scoredPairs scripts (splitWs (lowerStr query)))]
    rw [rankScripts, ← List.filter_append, List.take_append_drop]
  · simp [rankScripts, List.length_take, Nat.min_comm, sortByScoreDesc,
      (List.perm_insertionSort scoreGE
        (scoredPairs scripts (splitWs (lowerStr query)))).length_eq]
  · intro a ha b hb
    have hp := hsorted
    rw [← List.take_append_drop maxResults
      (sortByScoreDesc (scoredPairs scripts (splitWs (lowerStr query)))), List.pairwise_append] at hp
    exact hp.2.2 b hb a ha

/-- Demo record A of the spec's ranking example (score 15 on query `alpha`). -/
def rAlphaA : Record := ⟨"alpha one".toList, "a1".toList, "alpha tool".toList⟩

/-- Demo record B of the spec's ranking example (score 10 on query `alpha`). -/
def rAlphaB : Record := ⟨"alpha two".toList, "a2".toList, "system tool".toList⟩

/-- Demo record C of the spec's ranking example (score 15 on query `alpha`). -/
def rAlphaC : Record := ⟨"alpha three".toList, "a3".toList, "alpha helper".toList⟩

/-- Witness for C5 on a three-record catalogue with a tied score. -/
theorem rank_sorted_stable_capped_witness :
    (rankScripts [rAlphaA, rAlphaB, rAlphaC] (splitWs (lowerStr "alpha".toList))).length =
      min (scoredPairs [rAlphaA, rAlphaB, rAlphaC] (splitWs (lowerStr "alpha".toList))).length
        maxResults :=
  (rank_sorted_stable_capped [rAlphaA, rAlphaB, rAlphaC] "alpha".toList).2.2.1

/-! ### Abort on inconsistent cache (C2) -/

/-- If any slug in the list has a missing entry or an entry that fails to
decode, the reconstruction loop returns `none`. -/
theorem readLoop_none_of_bad (dec : Blob → Option Record)
    (entries : List Char → Option Blob) :
    ∀ sl : List (List Char),
    (∃ slug ∈ sl, entries slug = none ∨ ∃ b, entries slug = some b ∧ dec b = none) →
    readLoop dec entries sl = none := by
  intro sl
  induction sl with
  | nil => rintro ⟨slug, h, -⟩; exact absurd h (List.not_mem_nil slug)
  | cons slug rest ih =>
    rintro ⟨s2, hmem, hbad⟩
    rcases List.mem_cons.mp hmem with rfl | hmem2
    · rcases hbad with he | ⟨b, hb, hdec⟩
      · simp [readLoop, he]
      · by_cases hbe : b = [] <;> simp [readLoop, hb, hbe, hdec]
    · cases he : entries slug with
      | none => simp [readLoop, he]
      | some b =>
        by_cases hbe : b = []
        · simp [readLoop, he, hbe]
        · cases hd : dec b with
          | none => simp [readLoop, he, hbe, hd]
          | some r => simp [readLoop, he, hbe, hd, ih ⟨s2, hmem2, hbad⟩]

/-- C2: when the index is a non-empty slug list and some slug's entry is
missing or undecodable, the cache read yields nothing at all (no partial
list) and the served records are exactly the fresh-fetch result. -/
theorem load_aborts_to_fresh_fetch (enc : Record → Blob) (dec : Blob → Option Record)
    (c : Cache) (fetched : List Record) (sl : List (List Char))
    (hidx : c.index = some sl) (hne : sl ≠ [])
    (hbad : ∃ slug ∈ sl, c.entries slug = none ∨
      ∃ b, c.entries slug = some b ∧ dec b = none) :
    cacheReadScripts dec c = [] ∧ (loadScripts enc dec c fetched).1 = fetched := by
  have hnone : readLoop dec c.entries sl = none := readLoop_none_of_bad dec c.entries sl hbad
  have hcrs : cacheReadScripts dec c = [] := by
    simp [cacheReadScripts, hidx, hne, hnone]
  refine ⟨hcrs, ?_⟩
  by_cases hf : fetched = []
  · simp [loadScripts, hcrs, hf]
  · simp [loadScripts, hcrs, hf]

/-- A cache whose index names a slug that has no entry. -/
def badCache : Cache := ⟨fun _ => none, some ["portainer".toList]⟩

/-- Witness for C2: the poisoned cache falls through to the fetched list. -/
theorem load_aborts_to_fresh_fetch_witness :
    cacheReadScripts decDemo badCache = [] ∧
      (loadScripts encDemo decDemo badCache [rPortainer]).1 = [rPortainer] :=
  load_aborts_to_fresh_fetch encDemo decDemo badCache [rPortainer] ["portainer".toList]
    rfl (by decide) ⟨"portainer".toList, by decide, Or.inl rfl⟩

/-! ### Snapshot round-trip (C3) -/

/-- With non-empty slugs, the caching loop collects exactly the snapshot's
slugs, in order, after the accumulator. -/
theorem writeLoop_slugs (enc : Record → Blob) :
    ∀ (s : List Record) (c : Cache) (acc : List (List Char)),
    (∀ r ∈ s, r.slug ≠ []) →
    (writeLoop enc c acc s).2 = acc ++ s.map Record.slug := by
  intro s
  induction s with
  | nil => intro c acc _; simp [writeLoop]
  | cons r rest ih =>
    intro c acc h
    have hr : ¬ r.slug = [] := h r (by simp)
    have hrest : ∀ x ∈ rest, x.slug ≠ [] := fun x hx => h x (List.mem_cons_of_mem _ hx)
    by_cases hb : (enc r).length > maxCacheValueLen <;>
      simp [writeLoop, hr, hb, ih _ (acc ++ [r.slug]) hrest]

/-- The caching loop leaves entries at keys outside the snapshot's slugs
unchanged. -/
theorem writeLoop_entries_preserve (enc : Record → Blob) :
    ∀ (s : List Record) (c : Cache) (acc : List (List Char)) (k : List Char),
    k ∉ s.map Record.slug →
    ((writeLoop enc c acc s).1).entries k = c.entries k := by
  intro s
  induction s with
  | nil => intro c acc k _; simp [writeLoop]
  | cons r rest ih =>
    intro c acc k hk
    have hk1 : k ≠ r.slug := by
      intro he; exact hk (by simp [he])
    have hk2 : k ∉ rest.map Record.slug := fun hm => hk (by simp [hm])
    by_cases hs : r.slug = []
    · simp only [writeLoop, if_pos hs]
      exact ih _ acc k hk2
    · by_cases hb : (enc r).length > maxCacheValueLen
      · simp only [writeLoop, if_neg hs, if_pos hb]
        exact ih _ _ k hk2
      · simp only [writeLoop, if_neg hs, if_neg hb]
        rw [ih _ _ k hk2]
        simp [setEntry, hk1]

/-- Reading back the just-written snapshot, slug by slug in order, recovers
it exactly, assuming a faithful codec, sized blobs, and unique non-empty
slugs. -/
theorem readLoop_writeLoop (enc : Record → Blob) (dec : Blob → Option Record) :
    ∀ (s : List Record) (c : Cache) (acc : List (List Char)),
    (∀ r ∈ s, dec (enc r) = some r) →
    (∀ r ∈ s, (enc r).length ≤ maxCacheValueLen) →
    (∀ r ∈ s, enc r ≠ []) →
    (∀ r ∈ s, r.slug ≠ []) →
    (s.map Record.slug).Nodup →
    readLoop dec ((writeLoop enc c acc s).1).entries (s.map Record.slug) = some s := by
  intro s
  induction s with
  | nil => intro c acc _ _ _ _ _; simp [readLoop]
  | cons r rest ih =>
    intro c acc hdec hsize hneb hslug hnodup
    have hr : ¬ r.slug = [] := hslug r (by simp)
    have hsz : ¬ (enc r).length > maxCacheValueLen := by
      have := hsize r (by simp); omega
    have hnotmem : r.slug ∉ rest.map Record.slug := (List.nodup_cons.mp (by simpa using hnodup)).1
    have hnodup2 : (rest.map Record.slug).Nodup := (List.nodup_cons.mp (by simpa using hnodup)).2
    have hmemtail : ∀ {x : Record}, x ∈ rest → x ∈ r :: rest := fun hx => List.mem_cons_of_mem _ hx
    have hpres := writeLoop_entries_preserve enc rest (setEntry c r.slug (enc r))
      (acc ++ [r.slug]) r.slug hnotmem
    have h1 : (setEntry c r.slug (enc r)).entries r.slug = some (enc r) := by
      simp [setEntry]
    have hih := ih (setEntry c r.slug (enc r)) (acc ++ [r.slug])
      (fun x hx => hdec x (hmemtail hx)) (fun x hx => hsize x (hmemtail hx))
      (fun x hx => hneb x (hmemtail hx)) (fun x hx => hslug x (hmemtail hx)) hnodup2
    simp only [writeLoop, if_neg hr, if_neg hsz, List.map_cons]
    simp only [readLoop, hpres, h1, hneb r (by simp), hdec r (by simp), hih]
    simp

/-- C3: writing a snapshot (serialize, compress, set per-slug entries, set
the index) and reconstructing through the cache read path returns the
snapshot itself, in index order, given codec fidelity, per-record blobs that
are non-empty and within the size cap, and unique non-empty slugs. -/
theorem snapshot_roundTrip (enc : Record → Blob) (dec : Blob → Option Record)
    (c : Cache) (s : List Record)
    (hdec : ∀ r ∈ s, dec (enc r) = some r)
    (hsize : ∀ r ∈ s, (enc r).length ≤ maxCacheValueLen)
    (hneb : ∀ r ∈ s, enc r ≠ [])
    (hslug : ∀ r ∈ s, r.slug ≠ [])
    (hnodup : (s.map Record.slug).Nodup) :
    (writeSnapshot enc c s).2 = s.map Record.slug ∧
      cacheReadScripts dec (writeSnapshot enc c s).1 = s := by
  have hslugs : (writeLoop enc c [] s).2 = s.map Record.slug := by
    simpa using writeLoop_slugs enc s c [] hslug
  refine ⟨by simp [writeSnapshot, hslugs], ?_⟩
  cases s with
  | nil => simp [writeSnapshot, writeLoop, cacheReadScripts]
  | cons r rest =>
    have hread := readLoop_writeLoop enc dec (r :: rest) c [] hdec hsize hneb hslug hnodup
    simp only [writeSnapshot, cacheReadScripts, hslugs, List.map_cons]
    rw [if_neg (by simp)]
    simp only [List.map_cons] at hread
    rw [hread]

/-- Second demo record for the round-trip witness. -/
def rDocker : Record := ⟨"Docker".toList, "docker".toList, "container runtime".toList⟩

/-- A two-record snapshot for the round-trip witness. -/
def demoSnap : List Record := [rPortainer, rDocker]

/-- Witness for C3 on a concrete two-record snapshot and the demo codec. -/
theorem snapshot_roundTrip_witness :
    (writeSnapshot encDemo emptyCache demoSnap).2 = demoSnap.map Record.slug ∧
      cacheReadScripts decDemo (writeSnapshot encDemo emptyCache demoSnap).1 = demoSnap :=
  snapshot_roundTrip encDemo decDemo emptyCache demoSnap
    (by decide) (by decide) (by decide) (by decide) (by decide)

/-! ### The oversized-record slug is left in the index (C1) -/

/-- A record whose encoded blob will exceed the cache's size cap. -/
def bigRecord : Record := ⟨"Big".toList, "big-script".toList, [].map id⟩

/-- An encoder producing a blob one byte above the cap for every record,
standing in for `pickle.dumps` + `zlib.compress` on an oversized record. -/
def encBig : Record → Blob := fun _ => List.replicate (maxCacheValueLen + 1) 0

/-- C1 (behaviour of the code at the failing input): when the refetch path
writes back a snapshot holding one oversized record, the slug is still
written into the index entry although the per-slug entry is not written —
so the index does not equal the list of slugs actually written, and the very
next cache read aborts to a refetch. -/
theorem oversized_slug_in_index :
    ((loadScripts encBig decDemo emptyCache [bigRecord]).2).index = some [bigRecord.slug]
    ∧ ((loadScripts encBig decDemo emptyCache [bigRecord]).2).entries bigRecord.slug = none
    ∧ (loadScripts encBig decDemo emptyCache [bigRecord]).1 = [bigRecord]
    ∧ cacheReadScripts decDemo (loadScripts encBig decDemo emptyCache [bigRecord]).2 = [] := by
  have hover : (encBig bigRecord).length > maxCacheValueLen := by
    simp [encBig]
  have hslug : ¬ bigRecord.slug = [] := by decide
  have hcr : cacheReadScripts decDemo emptyCache = [] := rfl
  simp [loadScripts, hcr, writeSnapshot, writeLoop, hslug, hover, emptyCache,
    cacheReadScripts, readLoop]

/-! ### Fetcher soft failures and per-entry skipping (C6) -/

/-- A script entry of the shape `_fetch_scripts` rejects before any content
check: not a dict, or its `name` or `slug` value is absent or not a string. -/
def malformedScript (j : Json) : Prop :=
  (∀ fields, j ≠ Json.obj fields)
  ∨ asStr (j.get kName) = none
  ∨ asStr (j.get kSlug) = none

/-- A malformed script entry contributes nothing. -/
theorem parseScript_eq_none_of_malformed (j : Json) (h : malformedScript j) :
    parseScript j = none := by
  cases j with
  | obj fields =>
    rcases h with h | h | h
    · exact absurd rfl (h fields)
    · simp [parseScript, h]
    · cases hn : asStr ((Json.obj fields).get kName) <;> simp [parseScript, hn, h]
  | null => rfl
  | bool b => rfl
  | num n => rfl
  | str s => rfl
  | arr xs => rfl

/-- Skipping a script that parses to nothing leaves the scan state unchanged. -/
theorem foldl_stepScript_skip (pre post : List Json) (bad : Json)
    (h : parseScript bad = none) (st : List (List Char) × List Record) :
    (pre ++ bad :: post).foldl stepScript st = (pre ++ post).foldl stepScript st := by
  simp [List.foldl_append, List.foldl_cons, stepScript, h]

/-- Skipping a malformed category leaves the scan state unchanged. -/
theorem foldl_stepCategory_skip (cats1 cats2 : List Json) (bad : Json)
    (h : categoryScripts bad = none) (st : List (List Char) × List Record) :
    (cats1 ++ bad :: cats2).foldl stepCategory st = (cats1 ++ cats2).foldl stepCategory st := by
  simp [List.foldl_append, List.foldl_cons, stepCategory, h]

/-- C6: the fetcher soft-fails to the empty snapshot on a transport error, a
non-200 status, an undecodable body and a non-list payload; and a malformed
category, or a malformed script inside a category, is skipped without
affecting what its well-formed siblings contribute.  (The embedding is a
total function: no failure is propagated as an exception.) -/
theorem fetch_soft_failures_and_skips :
    fetchScripts .transportError = []
    ∧ (∀ status body, status ≠ 200 → fetchScripts (.ok status body) = [])
    ∧ fetchScripts (.ok 200 none) = []
    ∧ (∀ j, (∀ xs, j ≠ Json.arr xs) → fetchScripts (.ok 200 (some j)) = [])
    ∧ (∀ cats1 cats2 bad, categoryScripts bad = none →
        collectScripts (Json.arr (cats1 ++ bad :: cats2)) =
          collectScripts (Json.arr (cats1 ++ cats2)))
    ∧ (∀ cats1 cats2 cws cbad pre post bad, malformedScript bad →
        categoryScripts cbad = some (pre ++ bad :: post) →
        categoryScripts cws = some (pre ++ post) →
        collectScripts (Json.arr (cats1 ++ cbad :: cats2)) =
          collectScripts (Json.arr (cats1 ++ cws :: cats2))) := by
  refine ⟨rfl, ?_, rfl, ?_, ?_, ?_⟩
  · intro status body h
    simp [fetchScripts, h]
  · intro j h
    cases j with
    | arr xs => exact absurd rfl (h xs)
    | null => rfl
    | bool b => rfl
    | num n => rfl
    | str s => rfl
    | obj fields => rfl
  · intro cats1 cats2 bad h
    simp [collectScripts, foldl_stepCategory_skip cats1 cats2 bad h]
  · intro cats1 cats2 cws cbad pre post bad hm hb hw
    have hskip := foldl_stepScript_skip pre post bad (parseScript_eq_none_of_malformed bad hm)
    simp only [collectScripts, List.foldl_append, List.foldl_cons]
    have hstep : ∀ st, stepCategory st cbad = stepCategory st cws := by
      intro st
      simp [stepCategory, hb, hw, hskip st]
    rw [hstep]

/-- Witness for C6: a 404 status and a `null` category are both tolerated. -/
theorem fetch_soft_failures_and_skips_witness :
    fetchScripts (.ok 404 none) = []
    ∧ collectScripts (Json.arr ([] ++ Json.null :: [])) = collectScripts (Json.arr ([] ++ [])) :=
  ⟨fetch_soft_failures_and_skips.2.1 404 none (by decide),
    fetch_soft_failures_and_skips.2.2.2.2.1 [] [] Json.null rfl⟩

/-! ### Fetcher normalization: shape, dedup, ordering (C7) -/

/-- The records one category contributes before duplicate-slug removal, in
scan order. -/
def catCandidates (cat : Json) : List Record :=
  match categoryScripts cat with
  | none => []
  | some scripts => scripts.filterMap parseScript

/-- All records of the payload that pass per-record validation, in
first-encounter order (categories top-to-bottom, scripts within each
category top-to-bottom), before duplicate-slug removal. -/
def candidateRecords (data : Json) : List Record :=
  match data with
  | .arr cats => (cats.map catCandidates).flatten
  | _ => []

/-- The list `candidateRecords` lifted over the fetch outcome, mirroring the
soft-failure cases of `fetchScripts`. -/
def rawCandidates (resp : HttpResult) : List Record :=
  match resp with
  | .transportError => []
  | .ok status body =>
    if status ≠ 200 then []
    else
      match body with
      | none => []
      | some data => candidateRecords data

/-- Modelled from the spec's deduplication clause: keep the first record for
each slug, dropping later records whose slug was already seen. -/
def dedupFirst (seen : List (List Char)) : List Record → List Record
  | [] => []
  | r :: rest =>
    if seen.contains r.slug then dedupFirst seen rest
    else r :: dedupFirst (r.slug :: seen) rest

/-- The seen-slug set after running `dedupFirst`. -/
def dedupSeen (seen : List (List Char)) : List Record → List (List Char)
  | [] => seen
  | r :: rest =>
    if seen.contains r.slug then dedupSeen seen rest
    else dedupSeen (r.slug :: seen) rest

theorem dedupFirst_append (F : List Record) :
    ∀ (seen : List (List Char)) (J : List Record),
      dedupFirst seen (F ++ J) = dedupFirst seen F ++ dedupFirst (dedupSeen seen F) J := by
  induction F with
  | nil => intro seen J; simp [dedupFirst, dedupSeen]
  | cons r F ih =>
    intro seen J
    by_cases hc : r.slug ∈ seen <;>
      simp [dedupFirst, dedupSeen, hc, ih]

theorem dedupSeen_append (F : List Record) :
    ∀ (seen : List (List Char)) (J : List Record),
      dedupSeen seen (F ++ J) = dedupSeen (dedupSeen seen F) J := by
  induction F with
  | nil => intro seen J; simp [dedupSeen]
  | cons r F ih =>
    intro seen J
    by_cases hc : r.slug ∈ seen <;>
      simp [dedupSeen, hc, ih]

/-- The script scan of `_fetch_scripts` is first-wins deduplication of the
per-script normalized stream. -/
theorem foldl_stepScript_eq (js : List Json) :
    ∀ (seen : List (List Char)) (acc : List Record),
      js.foldl stepScript (seen, acc) =
        (dedupSeen seen (js.filterMap parseScript),
          acc ++ dedupFirst seen (js.filterMap parseScript)) := by
  induction js with
  | nil => intro seen acc; simp [dedupSeen, dedupFirst]
  | cons j js ih =>
    intro seen acc
    cases hp : parseScript j with
    | none => simp [List.foldl_cons, stepScript, hp, List.filterMap_cons, ih, dedupSeen, dedupFirst]
    | some r =>
      by_cases hc : r.slug ∈ seen <;>
        simp [List.foldl_cons, stepScript, hp, List.filterMap_cons, ih, dedupSeen, dedupFirst, hc]

/-- The category scan of `_fetch_scripts` is first-wins deduplication of the
flattened candidate stream. -/
theorem foldl_stepCategory_eq (cats : List Json) :
    ∀ (seen : List (List Char)) (acc : List Record),
      cats.foldl stepCategory (seen, acc) =
        (dedupSeen seen (cats.map catCandidates).flatten,
          acc ++ dedupFirst seen (cats.map catCandidates).flatten) := by
  induction cats with
  | nil => intro seen acc; simp [dedupSeen, dedupFirst]
  | cons cat cats ih =>
    intro seen acc
    simp only [List.foldl_cons, List.map_cons, List.flatten_cons]
    cases hcs : categoryScripts cat with
    | none =>
      have hcc : catCandidates cat = [] := by simp [catCandidates, hcs]
      simp [stepCategory, hcs, hcc, ih]
    | some scripts =>
      have hcc : catCandidates cat = scripts.filterMap parseScript := by
        simp [catCandidates, hcs]
      rw [show stepCategory (seen, acc) cat = scripts.foldl stepScript (seen, acc) by
        simp [stepCategory, hcs]]
      rw [foldl_stepScript_eq scripts seen acc, ih, hcc,
        dedupFirst_append, dedupSeen_append, List.append_assoc]

/-- The normalization of `_fetch_scripts` is exactly: collect candidates in scan
order, then deduplicate first-wins by slug. -/
theorem collectScripts_eq_dedup (data : Json) :
    collectScripts data = dedupFirst [] (candidateRecords data) := by
  cases data with
  | arr cats => simp [collectScripts, candidateRecords, foldl_stepCategory_eq cats [] []]
  | null => rfl
  | bool b => rfl
  | num n => rfl
  | str s => rfl
  | obj fields => rfl

theorem fetchScripts_eq_dedup (resp : HttpResult) :
    fetchScripts resp = dedupFirst [] (rawCandidates resp) := by
  cases resp with
  | transportError => rfl
  | ok status body =>
    by_cases h : status ≠ 200
    · simp [fetchScripts, rawCandidates, h, dedupFirst]
    · cases body with
      | none => simp [fetchScripts, rawCandidates, h, dedupFirst]
      | some data => simp [fetchScripts, rawCandidates, h, collectScripts_eq_dedup]

theorem dropWhile_head_not (p : Char → Bool) :
    ∀ (l : List Char) (x : Char) (rest : List Char),
      l.dropWhile p = x :: rest → p x = false := by
  intro l
  induction l with
  | nil => intro x rest h; simp [List.dropWhile] at h
  | cons a t ih =>
    intro x rest h
    rw [List.dropWhile_cons] at h
    by_cases hp : p a = true
    · rw [if_pos hp] at h; exact ih x rest h
    · rw [if_neg hp] at h
      cases h
      simpa using hp

theorem dropWhile_dropWhile (p : Char → Bool) (l : List Char) :
    (l.dropWhile p).dropWhile p = l.dropWhile p := by
  cases h : l.dropWhile p with
  | nil => simp
  | cons x rest =>
    rw [List.dropWhile_cons, if_neg (by simp [dropWhile_head_not p l x rest h])]

theorem length_dropWhile_le (p : Char → Bool) (l : List Char) :
    (l.dropWhile p).length ≤ l.length :=
  (List.dropWhile_suffix p).sublist.length_le

/-- A prefix of a list with no leading matches has no leading matches. -/
theorem dropWhile_eq_self_of_prefix (p : Char → Bool) (A C : List Char)
    (hA : A.dropWhile p = A) (hC : C <+: A) : C.dropWhile p = C := by
  cases C with
  | nil => simp
  | cons c cs =>
    obtain ⟨t, ht⟩ := hC
    have hpc : p c = false := by
      rw [← ht, List.cons_append, List.dropWhile_cons] at hA
      by_cases hp : p c = true
      · rw [if_pos hp] at hA
        have hle := length_dropWhile_le p (cs ++ t)
        rw [hA, List.length_cons] at hle
        omega
      · simpa using hp
    rw [List.dropWhile_cons, if_neg (by simp [hpc])]

/-- The output of `strip` has no leading whitespace. -/
theorem strip_noLeading (l : List Char) :
    (strip l).dropWhile Char.isWhitespace = strip l := by
  have hA : (l.dropWhile Char.isWhitespace).dropWhile Char.isWhitespace
      = l.dropWhile Char.isWhitespace := dropWhile_dropWhile _ _
  have h1 : ((l.dropWhile Char.isWhitespace).reverse.dropWhile Char.isWhitespace)
      <:+ (l.dropWhile Char.isWhitespace).reverse := List.dropWhile_suffix _
  have h2 := List.reverse_prefix.mpr h1
  rw [List.reverse_reverse] at h2
  exact dropWhile_eq_self_of_prefix _ _ _ hA h2

/-- Trimming is idempotent: its output is already trimmed. -/
theorem strip_idem (l : List Char) : strip (strip l) = strip l := by
  rw [strip, strip_noLeading l, strip, List.reverse_reverse, dropWhile_dropWhile]

theorem descOf_length (x : Option Json) : (descOf x).length ≤ 500 := by
  cases x with
  | none => simp [descOf]
  | some v => cases v <;> simp [descOf] <;> omega

/-- Every record a script entry parses to has a trimmed non-empty name and
slug and a description of at most 500 characters. -/
theorem parseScript_shape (j : Json) (r : Record) (h : parseScript j = some r) :
    r.name ≠ [] ∧ strip r.name = r.name ∧ r.slug ≠ [] ∧ strip r.slug = r.slug ∧
      r.description.length ≤ 500 := by
  cases j with
  | obj fields =>
    simp only [parseScript] at h
    split at h
    · rename_i name0 slug0 heq1 heq2
      by_cases h1 : strip name0 = [] ∨ strip slug0 = []
      · rw [if_pos h1] at h; exact Option.noConfusion h
      · rw [if_neg h1] at h
        by_cases h2 : isDisabledFlag ((Json.obj fields).get kDisable) = true
        · rw [if_pos h2] at h; exact Option.noConfusion h
        · rw [if_neg h2] at h
          injection h with h3
          subst h3
          push_neg at h1
          exact ⟨h1.1, strip_idem name0, h1.2, strip_idem slug0, descOf_length _⟩
    · exact Option.noConfusion h
  | null => exact Option.noConfusion h
  | bool b => exact Option.noConfusion h
  | num n => exact Option.noConfusion h
  | str s => exact Option.noConfusion h
  | arr xs => exact Option.noConfusion h

theorem mem_dedupFirst : ∀ (l : List Record) (seen : List (List Char)) (r : Record),
    r ∈ dedupFirst seen l → r ∈ l := by
  intro l
  induction l with
  | nil => intro seen r h; simpa [dedupFirst] using h
  | cons x l ih =>
    intro seen r h
    by_cases hc : x.slug ∈ seen
    · rw [dedupFirst, if_pos (by simpa using hc)] at h
      exact List.mem_cons_of_mem _ (ih seen r h)
    · rw [dedupFirst, if_neg (by simpa using hc)] at h
      rcases List.mem_cons.mp h with rfl | h2
      · exact List.mem_cons_self ..
      · exact List.mem_cons_of_mem _ (ih _ r h2)

/-- First-wins deduplication produces pairwise-distinct slugs, none of which
were already seen. -/
theorem dedupFirst_nodup : ∀ (l : List Record) (seen : List (List Char)),
    ((dedupFirst seen l).map Record.slug).Nodup ∧
      (∀ s2 ∈ (dedupFirst seen l).map Record.slug, s2 ∉ seen) := by
  intro l
  induction l with
  | nil => intro seen; simp [dedupFirst]
  | cons x l ih =>
    intro seen
    by_cases hc : x.slug ∈ seen
    · rw [dedupFirst, if_pos (by simpa using hc)]
      exact ih seen
    · rw [dedupFirst, if_neg (by simpa using hc)]
      obtain ⟨ih1, ih2⟩ := ih (x.slug :: seen)
      constructor
      · rw [List.map_cons, List.nodup_cons]
        exact ⟨fun hmem => (ih2 x.slug hmem) (List.mem_cons_self ..), ih1⟩
      · intro s2 hs2
        rw [List.map_cons] at hs2
        rcases List.mem_cons.mp hs2 with rfl | h2
        · exact hc
        · exact fun hseen => (ih2 s2 h2) (List.mem_cons_of_mem _ hseen)

theorem exists_parse_of_mem_candidates (data : Json) (r : Record)
    (h : r ∈ candidateRecords data) : ∃ j, parseScript j = some r := by
  cases data with
  | arr cats =>
    simp only [candidateRecords, List.mem_flatten, List.mem_map] at h
    obtain ⟨l, ⟨cat, hcat, rfl⟩, hr⟩ := h
    cases hcs : categoryScripts cat with
    | none => rw [catCandidates, hcs] at hr; exact absurd hr (List.not_mem_nil r)
    | some scripts =>
      rw [catCandidates, hcs] at hr
      obtain ⟨j, -, hj⟩ := List.mem_filterMap.mp hr
      exact ⟨j, hj⟩
  | null => simp [candidateRecords] at h
  | bool b => simp [candidateRecords] at h
  | num n => simp [candidateRecords] at h
  | str s => simp [candidateRecords] at h
  | obj fields => simp [candidateRecords] at h

theorem exists_parse_of_mem_raw (resp : HttpResult) (r : Record)
    (h : r ∈ rawCandidates resp) : ∃ j, parseScript j = some r := by
  cases resp with
  | transportError => simp [rawCandidates] at h
  | ok status body =>
    by_cases hs : status ≠ 200
    · simp [rawCandidates, hs] at h
    · cases body with
      | none => simp [rawCandidates, hs] at h
      | some data =>
        rw [rawCandidates, if_neg (by simpa using hs)] at h
        exact exists_parse_of_mem_candidates data r h

/-- C7: every fetched record has a non-empty trimmed name and slug and a
description of at most 500 characters; the snapshot's slugs are pairwise
distinct; and the snapshot equals first-wins deduplication of the
candidate records taken in first-encounter scan order. -/
theorem fetch_normalization_invariants (resp : HttpResult) :
    (∀ r ∈ fetchScripts resp,
      r.name ≠ [] ∧ strip r.name = r.name ∧ r.slug ≠ [] ∧ strip r.slug = r.slug ∧
        r.description.length ≤ 500)
    ∧ ((fetchScripts resp).map Record.slug).Nodup
    ∧ fetchScripts resp = dedupFirst [] (rawCandidates resp) := by
  have heq := fetchScripts_eq_dedup resp
  refine ⟨?_, ?_, heq⟩
  · intro r hr
    rw [heq] at hr
    obtain ⟨j, hj⟩ := exists_parse_of_mem_raw resp r (mem_dedupFirst _ [] r hr)
    exact parseScript_shape j r hj
  · rw [heq]
    exact (dedupFirst_nodup (rawCandidates resp) []).1

/-- A well-formed script entry for the C7 witness payload. -/
def scriptJson (name slug desc : List Char) : Json :=
  Json.obj [(kName, Json.str name), (kSlug, Json.str slug), (kDescription, Json.str desc)]

/-- A payload with a malformed script, a malformed category and a duplicate
slug across categories. -/
def demoPayload : Json :=
  Json.arr
    [ Json.obj [(kScripts,
        Json.arr [scriptJson "Portainer".toList "portainer".toList "ui".toList, Json.num 3])]
    , Json.null
    , Json.obj [(kScripts,
        Json.arr [scriptJson "Copy".toList "portainer".toList "dup".toList,
          scriptJson "Docker".toList "docker".toList "runtime".toList])] ]

/-- Witness for C7 on the demo payload, checking the first-encountered
record for the duplicated slug. -/
theorem fetch_normalization_invariants_witness :
    ((fetchScripts (.ok 200 (some demoPayload))).map Record.slug).Nodup
    ∧ fetchScripts (.ok 200 (some demoPayload)) =
        dedupFirst [] (rawCandidates (.ok 200 (some demoPayload)))
    ∧ (⟨"Portainer".toList, "portainer".toList, "ui".toList⟩ : Record).name ≠ [] :=
  ⟨(fetch_normalization_invariants (.ok 200 (some demoPayload))).2.1,
    (fetch_normalization_invariants (.ok 200 (some demoPayload))).2.2,
    ((fetch_normalization_invariants (.ok 200 (some demoPayload))).1
      ⟨"Portainer".toList, "portainer".toList, "ui".toList⟩ (by decide)).1⟩

/-! ### Display truncation (C8) -/

/-- Python `rsplit(" ", 1)[0]` on a list without spaces is the identity. -/
theorem dropLastSpaceSuffix_no_space (l : List Char) (h : ' ' ∉ l) :
    dropLastSpaceSuffix l = l := by
  have hd : l.reverse.dropWhile (fun c => c ≠ ' ') = [] := by
    rw [List.dropWhile_eq_nil_iff]
    intro x hx
    have hxl : x ∈ l := List.mem_reverse.mp hx
    simp only [ne_eq, decide_not, Bool.not_eq_true', decide_eq_false_iff_not, Decidable.not_not]
    rintro rfl
    exact h hxl
  unfold dropLastSpaceSuffix
  rw [hd]

/-- Python `rsplit(" ", 1)[0]` on a list containing a space drops the last space
and everything after it. -/
theorem dropLastSpaceSuffix_with_space (l : List Char) (h : ' ' ∈ l) :
    ∃ pre post, l = pre ++ ' ' :: post ∧ ' ' ∉ post ∧ dropLastSpaceSuffix l = pre := by
  have hne : l.reverse.dropWhile (fun c => c ≠ ' ') ≠ [] := by
    rw [Ne, List.dropWhile_eq_nil_iff]
    push_neg
    exact ⟨' ', List.mem_reverse.mpr h, by simp⟩
  obtain ⟨x, rest, hx⟩ := List.exists_cons_of_ne_nil hne
  have hx0 : x = ' ' := by
    have := dropWhile_head_not _ l.reverse x rest hx
    simpa using this
  subst hx0
  have hdecomp := List.takeWhile_append_dropWhile (p := fun c => c ≠ ' ') (l := l.reverse)
  rw [hx] at hdecomp
  refine ⟨rest.reverse, (l.reverse.takeWhile (fun c => c ≠ ' ')).reverse, ?_, ?_, ?_⟩
  · conv_lhs => rw [← List.reverse_reverse l, ← hdecomp]
    rw [List.reverse_append]
    simp
  · intro hmem
    have := List.mem_takeWhile_imp (List.mem_reverse.mp hmem)
    simp at this
  · unfold dropLastSpaceSuffix
    rw [hx]

/-- C8 (amended): a description of at most 300 characters is displayed
unmodified; a longer one is cut to its first 300 characters, which are then
truncated at the last space character when one exists (the space and
everything after it are dropped) and kept whole otherwise, with the ellipsis
marker appended. -/
theorem formatContent_spec (desc : List Char) :
    (desc.length ≤ 300 → formatContent desc = desc)
    ∧ (desc.length > 300 → ' ' ∈ desc.take 300 →
        ∃ pre post, desc.take 300 = pre ++ ' ' :: post ∧ ' ' ∉ post ∧
          formatContent desc = pre ++ ellipsis)
    ∧ (desc.length > 300 → ' ' ∉ desc.take 300 →
        formatContent desc = desc.take 300 ++ ellipsis) := by
  refine ⟨?_, ?_, ?_⟩
  · intro h
    rw [formatContent, if_neg (by omega)]
  · intro h hsp
    obtain ⟨pre, post, hdec, hnp, hdrop⟩ := dropLastSpaceSuffix_with_space _ hsp
    exact ⟨pre, post, hdec, hnp, by rw [formatContent, if_pos (by omega), hdrop]⟩
  · intro h hsp
    rw [formatContent, if_pos (by omega), dropLastSpaceSuffix_no_space _ hsp]

/-- Witness for the amended C8 on a short description. -/
theorem formatContent_spec_witness :
    "short desc".toList.length ≤ 300 ∧
      formatContent "short desc".toList = "short desc".toList :=
  ⟨by decide, (formatContent_spec "short desc".toList).1 (by decide)⟩

/-- A 301-character description whose only whitespace is a tab at index 295. -/
def dTab : List Char := List.replicate 295 'a' ++ '\t' :: List.replicate 5 'b'

set_option maxRecDepth 10000 in
/-- Counterexample to C8 as stated: the last *whitespace* boundary before the
300-character limit is the tab at index 295, but the code truncates only at
space characters, so it keeps the whole 300-character prefix (tab included)
instead of cutting at the tab. -/
theorem formatContent_last_whitespace_cex :
    dTab.length = 301
    ∧ dTab.take 300 = List.replicate 295 'a' ++ '\t' :: List.replicate 4 'b'
    ∧ (∀ c ∈ dTab, c.isWhitespace = true → c = '\t')
    ∧ formatContent dTab = dTab.take 300 ++ ellipsis
    ∧ dTab.take 300 ++ ellipsis ≠ List.replicate 295 'a' ++ ellipsis :=
  ⟨by decide, by decide, by decide, by decide, by decide⟩

end CommunityScripts
